import Mathlib

/-!
Verification of the rough-Heston pricing engine (`hestonClass.ipynb`).

The Python source is embedded shallowly: numpy arrays become functions
`ℕ → ℝ` / `ℕ → ℂ` that are zero outside the allocated index range, floats
become real numbers, complex numbers become `ℂ`, and the mutable attribute
`h_hat` of the `roughHeston` class becomes an `Option (ℕ → ℂ)` field that is
`none` until `fill_h` runs.  External library routines (`scipy.integrate.quad`,
`scipy.optimize.bisect`, `scipy.stats.norm.cdf`) are modelled by their
documented mathematical contracts.
-/

set_option maxHeartbeats 1000000

open scoped BigOperators

/-- The `heston_params` dictionary passed to `roughHeston.__init__`. -/
structure HestonParams where
  S0 : ℝ
  kappa : ℝ
  nu : ℝ
  theta : ℝ
  alpha : ℝ
  V0 : ℝ
  rho : ℝ

/-- The attribute state of a `roughHeston` instance.  `a_` and `b_` are the
weight matrices (zero outside the filled index range), `h_hat` is the solver
output attribute, absent (`none`) until `fill_h` first runs. -/
structure RoughHeston where
  T : ℝ
  n : ℕ
  dt : ℝ
  time_grid : ℕ → ℝ
  S0 : ℝ
  kappa : ℝ
  nu : ℝ
  theta : ℝ
  alpha : ℝ
  V0 : ℝ
  rho : ℝ
  frac : ℝ
  frac2 : ℝ
  frac_bar : ℝ
  a_ : ℕ → ℕ → ℝ
  b_ : ℕ → ℕ → ℝ
  h_hat : Option (ℕ → ℂ)

namespace RoughHeston

/-- Method `roughHeston.a(j, k)`: the unscaled corrector weight formula,
times `self.frac`.  Python integer arithmetic on `j`, `k` is exact, so the
casts to `ℝ` are faithful on the index range the class ever evaluates. -/
noncomputable def a (self : RoughHeston) (j k : ℕ) : ℝ :=
  if j = 0 then
    self.frac * (((k : ℝ) - 1) ^ (self.alpha + 1) - ((k : ℝ) - self.alpha - 1) * (k : ℝ) ^ self.alpha)
  else if j = k then
    self.frac * 1
  else
    self.frac * (((k : ℝ) + 1 - (j : ℝ)) ^ (self.alpha + 1) + ((k : ℝ) - 1 - (j : ℝ)) ^ (self.alpha + 1)
      - 2 * ((k : ℝ) - (j : ℝ)) ^ (self.alpha + 1))

/-- Method `roughHeston.b(j, k)`: the predictor weight formula. -/
noncomputable def b (self : RoughHeston) (j k : ℕ) : ℝ :=
  self.frac2 * (((k : ℝ) - (j : ℝ)) ^ self.alpha - ((k : ℝ) - (j : ℝ) - 1) ^ self.alpha)

/-- Method `roughHeston.fill_a`: the matrix `self.a_` as a function.  The numpy
array is `(n+1) × (n+1)` zeros; the loops fill entries for `1 ≤ k ≤ n`,
`0 ≤ j ≤ k`. -/
noncomputable def fill_a (self : RoughHeston) : ℕ → ℕ → ℝ := fun j k =>
  if 1 ≤ k ∧ k ≤ self.n ∧ j ≤ k then self.a j k else 0

/-- Method `roughHeston.fill_b`: the matrix `self.b_` as a function.  The numpy
array is `n × (n+1)` zeros; the loops fill entries for `1 ≤ k ≤ n`,
`0 ≤ j < k`. -/
noncomputable def fill_b (self : RoughHeston) : ℕ → ℕ → ℝ := fun j k =>
  if 1 ≤ k ∧ k ≤ self.n ∧ j < k then self.b j k else 0

end RoughHeston

/-- Constructor body of `roughHeston.__init__` (the part after `dt = T/n` has
succeeded): sets the time grid, copies the parameter dictionary, precomputes
`frac`, `frac2`, `frac_bar` and fills the two weight matrices. -/
noncomputable def mkRoughHeston (nbTimeSteps : ℕ) (p : HestonParams) (T : ℝ) : RoughHeston :=
  let pre : RoughHeston :=
    { T := T
      n := nbTimeSteps
      dt := T / (nbTimeSteps : ℝ)
      time_grid := fun i => (i : ℝ) * (T / (nbTimeSteps : ℝ))
      S0 := p.S0
      kappa := p.kappa
      nu := p.nu
      theta := p.theta
      alpha := p.alpha
      V0 := p.V0
      rho := p.rho
      frac := (T / (nbTimeSteps : ℝ)) ^ p.alpha / Real.Gamma (p.alpha + 2)
      frac2 := (T / (nbTimeSteps : ℝ)) ^ p.alpha / Real.Gamma (p.alpha + 1)
      frac_bar := 1 / Real.Gamma (1 - p.alpha)
      a_ := fun _ _ => 0
      b_ := fun _ _ => 0
      h_hat := none }
  { pre with a_ := pre.fill_a, b_ := pre.fill_b }

open Classical in
/-- Full `roughHeston.__init__`.  No statement validates the parameters, but
three Python arithmetic paths raise before the constructor finishes:
`n = 0` makes `self.dt = self.T / self.n` raise `ZeroDivisionError`;
`alpha < 0` makes an integer base `0` meet a negative float exponent —
at `dt ** alpha` itself when `T = 0`, at `(k-1) ** (alpha+1)` inside
`fill_a` (e.g. `a(0, 1)`) when `alpha < -1`, and at `(k-j-1) ** alpha`
inside `fill_b` (e.g. `b(0, 1)`) otherwise — raising `ZeroDivisionError`;
and `T < 0` with a non-integral `alpha` makes `dt ** alpha` a Python
complex number, so storing the first weight `self.frac * res` into the
real `np.zeros` array in `fill_a` raises `TypeError`.  On every other
input the constructor returns the fully assigned instance. -/
noncomputable def constructRoughHeston (nbTimeSteps : ℕ) (p : HestonParams) (T : ℝ) :
    Option RoughHeston :=
  if nbTimeSteps = 0 ∨ p.alpha < 0 ∨ (T < 0 ∧ ¬ ∃ m : ℤ, p.alpha = (m : ℝ)) then none
  else some (mkRoughHeston nbTimeSteps p T)

namespace RoughHeston

/-- Method `roughHeston.F(a, x)`: the fractional Riccati right-hand side. -/
noncomputable def F (self : RoughHeston) (a x : ℂ) : ℂ :=
  -0.5 * (a * a + Complex.I * a) - ((self.kappa : ℂ) - Complex.I * a * (self.rho : ℂ) * (self.nu : ℂ)) * x
    + 0.5 * (self.nu : ℂ) * (self.nu : ℂ) * x * x

/-- Method `roughHeston.h_P(a, k)`, with the current `self.h_hat` contents made
an explicit argument `h`. -/
noncomputable def h_P (self : RoughHeston) (a : ℂ) (h : ℕ → ℂ) (k : ℕ) : ℂ :=
  ∑ j ∈ Finset.range k, (self.b_ j k : ℂ) * self.F a (h j)

/-- Method `roughHeston.sum_a(a, k)`, with the current `self.h_hat` contents
made an explicit argument `h`. -/
noncomputable def sum_a (self : RoughHeston) (a : ℂ) (h : ℕ → ℂ) (k : ℕ) : ℂ :=
  ∑ j ∈ Finset.range k, (self.a_ j k : ℂ) * self.F a (h j)

/-- State of the `h_hat` array in `roughHeston.fill_h` after the loop has
processed steps `k = 1 .. m`: starts as the zero array, and step `m+1`
overwrites index `m+1` using the entries `0 .. m` already in place. -/
noncomputable def fill_h_loop (self : RoughHeston) (a : ℂ) : ℕ → ℕ → ℂ
  | 0 => fun _ => 0
  | m + 1 =>
    let h := self.fill_h_loop a m
    Function.update h (m + 1)
      (self.sum_a a h (m + 1) + (self.a_ (m + 1) (m + 1) : ℂ) * self.F a (self.h_P a h (m + 1)))

/-- The final contents of `self.h_hat` produced by `roughHeston.fill_h(a)`. -/
noncomputable def fill_h_fun (self : RoughHeston) (a : ℂ) : ℕ → ℂ :=
  self.fill_h_loop a self.n

/-- Method `roughHeston.fill_h(a)` as a state transformer: it assigns
`self.h_hat` and touches no other attribute. -/
noncomputable def fill_h (self : RoughHeston) (a : ℂ) : RoughHeston :=
  { self with h_hat := some (self.fill_h_fun a) }

end RoughHeston

/-- `numpy.trapz(y, x)` for an array `y` of length `n + 1` sampled at
abscissae `x`. -/
noncomputable def trapz (y : ℕ → ℂ) (x : ℕ → ℝ) (n : ℕ) : ℂ :=
  ∑ i ∈ Finset.range n, ((x (i + 1) - x i : ℝ) : ℂ) * (y i + y (i + 1)) / 2

namespace RoughHeston

/-- Value returned by method `roughHeston.rHeston_char_function(a)`. -/
noncomputable def rHeston_char_function (self : RoughHeston) (a : ℂ) : ℂ :=
  let h := self.fill_h_fun a
  let integral := trapz h self.time_grid self.n
  let y : ℕ → ℂ := fun i =>
    (((self.T - self.time_grid i) ^ (1 - self.alpha)
        - (self.T - self.time_grid (i + 1)) ^ (1 - self.alpha) : ℝ) : ℂ) * h i
  let frac_integral := (self.frac_bar : ℂ) * (∑ i ∈ Finset.range self.n, y i) / ((1 - self.alpha : ℝ) : ℂ)
  Complex.exp ((self.kappa : ℂ) * (self.theta : ℂ) * integral + (self.V0 : ℂ) * frac_integral)

/-- `roughHeston.rHeston_char_function` with its state effect made explicit:
it calls `fill_h` (overwriting `self.h_hat`) and returns the assembled value. -/
noncomputable def rHeston_char_function_run (self : RoughHeston) (a : ℂ) : RoughHeston × ℂ :=
  (self.fill_h a, self.rHeston_char_function a)

/-- The integrand lambda `func` inside `roughHeston.rHeston_Call`. -/
noncomputable def rHeston_integrand (self : RoughHeston) (k : ℝ) (u : ℝ) : ℝ :=
  (Complex.exp (-Complex.I * (u : ℂ) * (k : ℂ))
      * self.rHeston_char_function ((u : ℂ) - 0.5 * Complex.I)).re / (u ^ 2 + 0.25)

/-- Method `roughHeston.rHeston_Call(k, upLim)`.  The external adaptive
quadrature `scipy.integrate.quad` is abstracted as an argument `quad` taking
the integrand and the two integration bounds the source passes to it; the
source passes the literal bounds `0` and `5.` (it does not use `upLim`). -/
noncomputable def rHeston_Call (self : RoughHeston) (quad : (ℝ → ℝ) → ℝ → ℝ → ℝ)
    (k upLim : ℝ) : ℝ :=
  let K := self.S0 * Real.exp k
  let integ := quad (self.rHeston_integrand k) 0 5
  self.S0 - Real.sqrt (self.S0 * K) * integ / Real.pi

/-- Method `roughHeston.heston_char_function(u)`: the closed-form Heston
characteristic function.  `np.sqrt` and `np.log` on complex arguments are the
principal branches, i.e. `Complex.cpow _ (1/2)` and `Complex.log`. -/
noncomputable def heston_char_function (self : RoughHeston) (u : ℂ) : ℂ :=
  let nu2 := (self.nu : ℂ) ^ 2
  let T : ℂ := (self.T : ℂ)
  let dif := (self.kappa : ℂ) - (self.rho : ℂ) * (self.nu : ℂ) * u * Complex.I
  let d := (dif ^ 2 + nu2 * (Complex.I * u + u ^ 2)) ^ ((1 : ℂ) / 2)
  let g := (dif - d) / (dif + d)
  Complex.exp (Complex.I * u * ((Real.log self.S0 : ℝ) : ℂ))
    * Complex.exp (((self.kappa : ℂ) * (self.theta : ℂ) / nu2)
        * ((dif - d) * T - 2 * Complex.log ((1 - g * Complex.exp (-d * T)) / (1 - g))))
    * Complex.exp (((self.V0 : ℂ) / nu2) * (dif - d) * (1 - Complex.exp (-d * T))
        / (1 - g * Complex.exp (-d * T)))

/-- The integrand lambda `func` inside `roughHeston.heston_Call`. -/
noncomputable def heston_integrand (self : RoughHeston) (k : ℝ) (u : ℝ) : ℝ :=
  (Complex.exp (-Complex.I * (u : ℂ) * (k : ℂ))
      * self.heston_char_function ((u : ℂ) - 0.5 * Complex.I)).re / (u ^ 2 + 0.25)

/-- Method `roughHeston.heston_Call(k)`: the source passes `np.inf` as the
upper quadrature limit, i.e. an improper integral over `(0, ∞)`, modelled as
the Lebesgue integral over `Set.Ioi 0` (quadrature run to convergence). -/
noncomputable def heston_Call (self : RoughHeston) (k : ℝ) : ℝ :=
  let K := self.S0 * Real.exp k
  let integ := ∫ u in Set.Ioi (0 : ℝ), self.heston_integrand k u
  self.S0 - Real.sqrt (self.S0 * K) * integ / Real.pi

end RoughHeston

/-! ### Basic solver lemmas -/

/-- The loop of `fill_h` never writes index `0`. -/
lemma fill_h_loop_zero (self : RoughHeston) (a : ℂ) :
    ∀ m, self.fill_h_loop a m 0 = 0 := by
  intro m
  induction m with
  | zero => rfl
  | succ m ih =>
    simp only [RoughHeston.fill_h_loop]
    rw [Function.update_noteq (by omega)]
    exact ih

/-- Entries `≤ m` of the `fill_h` loop are stable from step `m` on: step
`m' + 1` only writes index `m' + 1`. -/
lemma fill_h_loop_stable (self : RoughHeston) (a : ℂ) {m m' : ℕ} (hmm : m ≤ m') :
    ∀ j ≤ m, self.fill_h_loop a m' j = self.fill_h_loop a m j := by
  induction m' with
  | zero =>
    intro j _
    obtain rfl : m = 0 := Nat.le_zero.mp hmm
    rfl
  | succ m' ih =>
    intro j hj
    rcases Nat.eq_or_lt_of_le hmm with rfl | hlt
    · rfl
    · have hm : m ≤ m' := Nat.lt_succ_iff.mp hlt
      have hne : j ≠ m' + 1 := by omega
      simp only [RoughHeston.fill_h_loop]
      rw [Function.update_noteq hne]
      exact ih hm j hj

/-- The value written at step `k = m + 1 ≤ n` survives to the final array. -/
lemma fill_h_fun_eq_loop (self : RoughHeston) (a : ℂ) {k : ℕ} (hk : k ≤ self.n) :
    self.fill_h_fun a k = self.fill_h_loop a k k := by
  exact fill_h_loop_stable self a hk k le_rfl

/-! ### C7 -/

/-- C7: for every complex Fourier argument and every engine state, the
solution array produced by `fill_h` satisfies `h_hat[0] = 0` (true for every
parameter set, in particular for every valid one). -/
theorem solver_initial_condition (self : RoughHeston) (a : ℂ) :
    self.fill_h_fun a 0 = 0 ∧ (self.fill_h a).h_hat = some (self.fill_h_fun a) := by
  constructor
  · exact fill_h_loop_zero self a self.n
  · rfl

/-! ### C3 -/

/-- The Riccati kernel exactly as the specification writes it:
`F(a, x) = -½(a² + i·a) - (κ - i·a·ρ·ν)·x + ½ν²x²`, a pure function of the
three scalar parameters and the two complex arguments only. -/
noncomputable def F_spec (kappa rho nu : ℝ) (a x : ℂ) : ℂ :=
  -(1 / 2) * (a ^ 2 + Complex.I * a) - ((kappa : ℂ) - Complex.I * a * (rho : ℂ) * (nu : ℂ)) * x
    + (1 / 2) * (nu : ℂ) ^ 2 * x ^ 2

/-- C3: the method `roughHeston.F` computes exactly the specified pure
function `F(a, x) = -½(a² + i·a) - (κ - i·a·ρ·ν)·x + ½ν²x²`; it reads only
the scalar parameters `κ`, `ρ`, `ν` of the instance (so it has no hidden
state) and writes nothing. -/
theorem riccati_kernel_formula (self : RoughHeston) (a x : ℂ) :
    self.F a x = F_spec self.kappa self.rho self.nu a x := by
  simp only [RoughHeston.F, F_spec]
  norm_num
  ring

/-! ### C1 -/

/-- C1: for every Fourier argument and every engine, the solver output
satisfies, for each `k = 1 .. n`, the predictor-corrector recursion
`h_hat[k] = sum_a(k) + a_{k,k} · F(a, h_P(k))` where
`h_P(k) = Σ_{j<k} b_{j,k} · F(a, h_hat[j])` and
`sum_a(k) = Σ_{j<k} a_{j,k} · F(a, h_hat[j])`; the right-hand side reads only
the entries `h_hat[0..k-1]`. -/
theorem solver_recursion (self : RoughHeston) (a : ℂ) (k : ℕ)
    (h1 : 1 ≤ k) (hkn : k ≤ self.n) :
    self.fill_h_fun a k
        = self.sum_a a (self.fill_h_fun a) k
          + (self.a_ k k : ℂ) * self.F a (self.h_P a (self.fill_h_fun a) k)
      ∧ self.h_P a (self.fill_h_fun a) k
        = ∑ j ∈ Finset.range k, (self.b_ j k : ℂ) * self.F a (self.fill_h_fun a j)
      ∧ self.sum_a a (self.fill_h_fun a) k
        = ∑ j ∈ Finset.range k, (self.a_ j k : ℂ) * self.F a (self.fill_h_fun a j) := by
  refine ⟨?_, rfl, rfl⟩
  obtain ⟨m, rfl⟩ : ∃ m, k = m + 1 := ⟨k - 1, by omega⟩
  have hstep : self.fill_h_fun a (m + 1)
      = self.sum_a a (self.fill_h_loop a m) (m + 1)
        + (self.a_ (m + 1) (m + 1) : ℂ) * self.F a (self.h_P a (self.fill_h_loop a m) (m + 1)) := by
    rw [fill_h_fun_eq_loop self a hkn]
    simp only [RoughHeston.fill_h_loop]
    rw [Function.update_same]
  have hpre : ∀ j ∈ Finset.range (m + 1),
      self.fill_h_loop a m j = self.fill_h_fun a j := by
    intro j hj
    have hjm : j ≤ m := Nat.lt_succ_iff.mp (Finset.mem_range.mp hj)
    have := fill_h_loop_stable self a (le_trans (Nat.le_succ m) hkn) j hjm
    rw [RoughHeston.fill_h_fun, this]
  have hsum_a : self.sum_a a (self.fill_h_loop a m) (m + 1)
      = self.sum_a a (self.fill_h_fun a) (m + 1) := by
    unfold RoughHeston.sum_a
    exact Finset.sum_congr rfl fun j hj => by rw [hpre j hj]
  have hsum_b : self.h_P a (self.fill_h_loop a m) (m + 1)
      = self.h_P a (self.fill_h_fun a) (m + 1) := by
    unfold RoughHeston.h_P
    exact Finset.sum_congr rfl fun j hj => by rw [hpre j hj]
  rw [hstep, hsum_a, hsum_b]

/-- Parameter set used to instantiate witnesses: the notebook's regression
scenario `kappa=0.3, nu=0.3, rho=-0.7, V0=0.02, theta=0.02, S0=1, alpha=0.6`. -/
def regressionParams : HestonParams :=
  { S0 := 1, kappa := 0.3, nu := 0.3, theta := 0.02, alpha := 0.6, V0 := 0.02, rho := -0.7 }

/-- Witness for C1: the hypotheses `1 ≤ k ≤ n` hold at `k = 1` on a two-step
engine, and the recursion identity follows. -/
theorem solver_recursion_witness :
    1 ≤ 1 ∧ 1 ≤ (mkRoughHeston 2 regressionParams 1).n
      ∧ ((mkRoughHeston 2 regressionParams 1).fill_h_fun 1 1
          = (mkRoughHeston 2 regressionParams 1).sum_a 1
              ((mkRoughHeston 2 regressionParams 1).fill_h_fun 1) 1
            + ((mkRoughHeston 2 regressionParams 1).a_ 1 1 : ℂ)
              * (mkRoughHeston 2 regressionParams 1).F 1
                  ((mkRoughHeston 2 regressionParams 1).h_P 1
                    ((mkRoughHeston 2 regressionParams 1).fill_h_fun 1) 1)) :=
  ⟨le_rfl, by norm_num [mkRoughHeston],
    (solver_recursion (mkRoughHeston 2 regressionParams 1) 1 1 le_rfl
      (by norm_num [mkRoughHeston])).1⟩

/-! ### Weight-matrix lemmas -/

lemma mkRoughHeston_n (n : ℕ) (p : HestonParams) (T : ℝ) :
    (mkRoughHeston n p T).n = n := rfl

lemma mkRoughHeston_alpha (n : ℕ) (p : HestonParams) (T : ℝ) :
    (mkRoughHeston n p T).alpha = p.alpha := rfl

lemma mkRoughHeston_frac (n : ℕ) (p : HestonParams) (T : ℝ) :
    (mkRoughHeston n p T).frac = (T / (n : ℝ)) ^ p.alpha / Real.Gamma (p.alpha + 2) := rfl

lemma mkRoughHeston_frac2 (n : ℕ) (p : HestonParams) (T : ℝ) :
    (mkRoughHeston n p T).frac2 = (T / (n : ℝ)) ^ p.alpha / Real.Gamma (p.alpha + 1) := rfl

lemma mkRoughHeston_a_apply (n : ℕ) (p : HestonParams) (T : ℝ) (j k : ℕ) :
    (mkRoughHeston n p T).a_ j k =
      if 1 ≤ k ∧ k ≤ n ∧ j ≤ k then
        if j = 0 then
          (T / (n : ℝ)) ^ p.alpha / Real.Gamma (p.alpha + 2)
            * (((k : ℝ) - 1) ^ (p.alpha + 1) - ((k : ℝ) - p.alpha - 1) * (k : ℝ) ^ p.alpha)
        else if j = k then
          (T / (n : ℝ)) ^ p.alpha / Real.Gamma (p.alpha + 2) * 1
        else
          (T / (n : ℝ)) ^ p.alpha / Real.Gamma (p.alpha + 2)
            * (((k : ℝ) + 1 - (j : ℝ)) ^ (p.alpha + 1) + ((k : ℝ) - 1 - (j : ℝ)) ^ (p.alpha + 1)
              - 2 * ((k : ℝ) - (j : ℝ)) ^ (p.alpha + 1))
      else 0 := rfl

lemma mkRoughHeston_b_apply (n : ℕ) (p : HestonParams) (T : ℝ) (j k : ℕ) :
    (mkRoughHeston n p T).b_ j k =
      if 1 ≤ k ∧ k ≤ n ∧ j < k then
        (T / (n : ℝ)) ^ p.alpha / Real.Gamma (p.alpha + 1)
          * (((k : ℝ) - (j : ℝ)) ^ p.alpha - ((k : ℝ) - (j : ℝ) - 1) ^ p.alpha)
      else 0 := rfl

/-! ### C2 -/

/-- C2: for every engine built from `(n, T, alpha)`, the weight matrices carry
exactly the specified formulas: the interior, first-column and diagonal
corrector weights with `C_a = dt^α/Γ(α+2)`, the predictor weights with
`C_b = dt^α/Γ(α+1)`, and zero outside the filled index ranges. -/
theorem weight_matrix_formulas (n : ℕ) (p : HestonParams) (T : ℝ) (j k : ℕ)
    (hk1 : 1 ≤ k) (hkn : k ≤ n) :
    ((0 < j → j < k →
        (mkRoughHeston n p T).a_ j k
          = (T / (n : ℝ)) ^ p.alpha / Real.Gamma (p.alpha + 2)
            * (((k : ℝ) + 1 - (j : ℝ)) ^ (p.alpha + 1) + ((k : ℝ) - 1 - (j : ℝ)) ^ (p.alpha + 1)
              - 2 * ((k : ℝ) - (j : ℝ)) ^ (p.alpha + 1)))
      ∧ (mkRoughHeston n p T).a_ 0 k
          = (T / (n : ℝ)) ^ p.alpha / Real.Gamma (p.alpha + 2)
            * (((k : ℝ) - 1) ^ (p.alpha + 1) - ((k : ℝ) - p.alpha - 1) * (k : ℝ) ^ p.alpha)
      ∧ (mkRoughHeston n p T).a_ k k = (T / (n : ℝ)) ^ p.alpha / Real.Gamma (p.alpha + 2)
      ∧ (j < k →
        (mkRoughHeston n p T).b_ j k
          = (T / (n : ℝ)) ^ p.alpha / Real.Gamma (p.alpha + 1)
            * (((k : ℝ) - (j : ℝ)) ^ p.alpha - ((k : ℝ) - (j : ℝ) - 1) ^ p.alpha)))
    ∧ (∀ j' k' : ℕ, k' = 0 ∨ k' < j' → (mkRoughHeston n p T).a_ j' k' = 0)
    ∧ (∀ j' k' : ℕ, k' = 0 ∨ k' ≤ j' → (mkRoughHeston n p T).b_ j' k' = 0) := by
  refine ⟨⟨?_, ?_, ?_, ?_⟩, ?_, ?_⟩
  · intro hj0 hjk
    rw [mkRoughHeston_a_apply, if_pos ⟨hk1, hkn, le_of_lt hjk⟩,
      if_neg (by omega), if_neg (by omega)]
  · rw [mkRoughHeston_a_apply, if_pos ⟨hk1, hkn, Nat.zero_le k⟩, if_pos rfl]
  · rw [mkRoughHeston_a_apply, if_pos ⟨hk1, hkn, le_rfl⟩]
    have hk0 : k ≠ 0 := by omega
    rw [if_neg hk0, if_pos rfl, mul_one]
  · intro hjk
    rw [mkRoughHeston_b_apply, if_pos ⟨hk1, hkn, hjk⟩]
  · intro j' k' h
    rw [mkRoughHeston_a_apply, if_neg (by omega)]
  · intro j' k' h
    rw [mkRoughHeston_b_apply, if_neg (by omega)]

/-- Witness for C2: the hypotheses hold at `k = 2 ≤ n = 2`, and e.g. the
interior-weight formula at `j = 1 < k = 2` follows. -/
theorem weight_matrix_formulas_witness :
    1 ≤ 2 ∧ 2 ≤ 2 ∧ 0 < 1 ∧ 1 < 2
      ∧ (mkRoughHeston 2 regressionParams 1).a_ 1 2
          = ((1 : ℝ) / (2 : ℝ)) ^ regressionParams.alpha / Real.Gamma (regressionParams.alpha + 2)
            * (((2 : ℝ) + 1 - 1) ^ (regressionParams.alpha + 1)
              + ((2 : ℝ) - 1 - 1) ^ (regressionParams.alpha + 1)
              - 2 * ((2 : ℝ) - 1) ^ (regressionParams.alpha + 1)) := by
  refine ⟨by omega, by omega, by omega, by omega, ?_⟩
  have h := ((weight_matrix_formulas 2 regressionParams 1 1 2 (by omega) (by omega)).1).1
    (by omega) (by omega)
  simpa using h

/-! ### C8 -/

/-- Telescoping of the predictor column: for `α ≠ 0` and the real power
function `f i = i^α`, the sum over `j < k` of `f (k-j) - f (k-j-1)` collapses
to `k^α`. -/
lemma rpow_col_telescope (alpha : ℝ) (halpha : alpha ≠ 0) (k : ℕ) :
    ∑ j ∈ Finset.range k, (((k : ℝ) - (j : ℝ)) ^ alpha - ((k : ℝ) - (j : ℝ) - 1) ^ alpha)
      = (k : ℝ) ^ alpha := by
  have hcast : ∀ j ∈ Finset.range k,
      ((k : ℝ) - (j : ℝ)) ^ alpha - ((k : ℝ) - (j : ℝ) - 1) ^ alpha
        = (fun i : ℕ => ((i : ℝ) ^ alpha)) (k - 1 - j + 1)
          - (fun i : ℕ => ((i : ℝ) ^ alpha)) (k - 1 - j) := by
    intro j hj
    have hjk : j < k := Finset.mem_range.mp hj
    have h1 : ((k - 1 - j + 1 : ℕ) : ℝ) = (k : ℝ) - (j : ℝ) := by
      have : k - 1 - j + 1 = k - j := by omega
      rw [this, Nat.cast_sub (le_of_lt hjk)]
    have h2 : ((k - 1 - j : ℕ) : ℝ) = (k : ℝ) - (j : ℝ) - 1 := by
      rw [Nat.cast_sub (by omega : j ≤ k - 1), Nat.cast_sub (by omega : 1 ≤ k)]
      push_cast
      ring
    simp only [h1, h2]
  rw [Finset.sum_congr rfl hcast,
    Finset.sum_range_reflect (fun i : ℕ => ((i + 1 : ℕ) : ℝ) ^ alpha - ((i : ℕ) : ℝ) ^ alpha) k,
    Finset.sum_range_sub (fun i : ℕ => ((i : ℝ) ^ alpha))]
  simp [Real.zero_rpow halpha]

/-- C8: for every engine built from `(n, T, alpha)` with `alpha > 0` and every
`1 ≤ k ≤ n`, the diagonal corrector weight is `dt^α/Γ(α+2)` and the predictor
column sums to the closed-form telescoping value `C_b · k^α` with
`C_b = dt^α/Γ(α+1)`. -/
theorem weight_diagonal_and_column_sum (n : ℕ) (p : HestonParams) (T : ℝ) (k : ℕ)
    (hk1 : 1 ≤ k) (hkn : k ≤ n) (halpha : 0 < p.alpha) :
    (mkRoughHeston n p T).a_ k k = (T / (n : ℝ)) ^ p.alpha / Real.Gamma (p.alpha + 2)
      ∧ ∑ j ∈ Finset.range k, (mkRoughHeston n p T).b_ j k
          = (T / (n : ℝ)) ^ p.alpha / Real.Gamma (p.alpha + 1) * (k : ℝ) ^ p.alpha := by
  constructor
  · rw [mkRoughHeston_a_apply, if_pos ⟨hk1, hkn, le_rfl⟩, if_neg (by omega), if_pos rfl,
      mul_one]
  · have hterm : ∀ j ∈ Finset.range k,
        (mkRoughHeston n p T).b_ j k
          = (T / (n : ℝ)) ^ p.alpha / Real.Gamma (p.alpha + 1)
            * (((k : ℝ) - (j : ℝ)) ^ p.alpha - ((k : ℝ) - (j : ℝ) - 1) ^ p.alpha) := by
      intro j hj
      rw [mkRoughHeston_b_apply, if_pos ⟨hk1, hkn, Finset.mem_range.mp hj⟩]
    rw [Finset.sum_congr rfl hterm, ← Finset.mul_sum,
      rpow_col_telescope p.alpha (ne_of_gt halpha) k]

/-- Witness for C8: the hypotheses hold at `k = n = 1` with `alpha = 0.6 > 0`. -/
theorem weight_diagonal_and_column_sum_witness :
    1 ≤ 1 ∧ 1 ≤ 1 ∧ 0 < regressionParams.alpha
      ∧ ((mkRoughHeston 1 regressionParams 1).a_ 1 1
            = ((1 : ℝ) / (1 : ℝ)) ^ regressionParams.alpha
              / Real.Gamma (regressionParams.alpha + 2)
          ∧ ∑ j ∈ Finset.range 1, (mkRoughHeston 1 regressionParams 1).b_ j 1
            = ((1 : ℝ) / (1 : ℝ)) ^ regressionParams.alpha
              / Real.Gamma (regressionParams.alpha + 1) * (1 : ℝ) ^ regressionParams.alpha) := by
  refine ⟨le_rfl, le_rfl, by norm_num [regressionParams], ?_⟩
  exact_mod_cast weight_diagonal_and_column_sum 1 regressionParams 1 1 le_rfl le_rfl
    (by norm_num [regressionParams])

/-! ### C5 -/

/-- C5 (code bug): the source of `rHeston_Call` passes the literal constant
`5.` as the upper quadrature limit and never reads its `upLim` parameter, so
the price is the same for every caller-supplied cutoff; the reference-model
`heston_Call` takes no cutoff and integrates over `(0, ∞)`. -/
theorem rough_cutoff_hardcoded :
    (∀ (self : RoughHeston) (quad : (ℝ → ℝ) → ℝ → ℝ → ℝ) (k u1 u2 : ℝ),
        self.rHeston_Call quad k u1 = self.rHeston_Call quad k u2)
    ∧ (∀ (self : RoughHeston) (quad : (ℝ → ℝ) → ℝ → ℝ → ℝ) (k upLim : ℝ),
        self.rHeston_Call quad k upLim
          = self.S0 - Real.sqrt (self.S0 * (self.S0 * Real.exp k))
              * quad (self.rHeston_integrand k) 0 5 / Real.pi)
    ∧ (∀ (self : RoughHeston) (k : ℝ),
        self.heston_Call k
          = self.S0 - Real.sqrt (self.S0 * (self.S0 * Real.exp k))
              * (∫ u in Set.Ioi (0 : ℝ), self.heston_integrand k u) / Real.pi) :=
  ⟨fun _ _ _ _ _ => rfl, fun _ _ _ _ => rfl, fun _ _ => rfl⟩

/-! ### C6 -/

/-- C6 counterexample: construction with `S0 = -1 ≤ 0`, `V0 = -0.02 ≤ 0`,
`alpha = 2 ∉ (0.5, 1)`, `rho = 5 ∉ [-1, 1]` and `T = -2 ≤ 0` succeeds and
returns an engine instance that stores those invalid values verbatim — no
InvalidParameter failure occurs. -/
theorem construction_accepts_invalid_parameters :
    constructRoughHeston 3 ⟨-1, 0.3, 0.3, 0.02, 2, -0.02, 5⟩ (-2)
        = some (mkRoughHeston 3 ⟨-1, 0.3, 0.3, 0.02, 2, -0.02, 5⟩ (-2))
      ∧ (mkRoughHeston 3 ⟨-1, 0.3, 0.3, 0.02, 2, -0.02, 5⟩ (-2)).alpha = 2
      ∧ (mkRoughHeston 3 ⟨-1, 0.3, 0.3, 0.02, 2, -0.02, 5⟩ (-2)).rho = 5
      ∧ (mkRoughHeston 3 ⟨-1, 0.3, 0.3, 0.02, 2, -0.02, 5⟩ (-2)).S0 = -1
      ∧ (mkRoughHeston 3 ⟨-1, 0.3, 0.3, 0.02, 2, -0.02, 5⟩ (-2)).V0 = -0.02
      ∧ (mkRoughHeston 3 ⟨-1, 0.3, 0.3, 0.02, 2, -0.02, 5⟩ (-2)).T = -2 := by
  refine ⟨?_, rfl, rfl, rfl, rfl, rfl⟩
  rw [constructRoughHeston, if_neg]
  rintro (h | h | h)
  · omega
  · norm_num at h
  · exact h.2 ⟨2, by norm_num⟩

/-- C6 (amended): `roughHeston.__init__` performs no parameter validation and
signals no InvalidParameter error.  For every `n ≥ 1` with `alpha ≥ 0` and
(`T ≥ 0` or `alpha` integral) it returns an engine instance storing `T` and
the `ModelParameters` verbatim, however invalid (`rho`, `S0`, `V0` and the
sign of `T` are never checked).  The only construction failures are
incidental arithmetic errors, none of them a parameter check: `n = 0`
(`ZeroDivisionError` at `dt = T/n`), `alpha < 0` (`ZeroDivisionError` from an
integer base `0` under a negative exponent in `dt ** alpha` or the weight
fills), and `T < 0` with non-integral `alpha` (`dt ** alpha` complex, so
`TypeError` when the first weight is stored). -/
theorem construction_no_validation (n : ℕ) (p : HestonParams) (T : ℝ) (hn : 1 ≤ n)
    (halpha : 0 ≤ p.alpha) (hTa : 0 ≤ T ∨ ∃ m : ℤ, p.alpha = (m : ℝ)) :
    constructRoughHeston n p T = some (mkRoughHeston n p T)
      ∧ (mkRoughHeston n p T).alpha = p.alpha
      ∧ (mkRoughHeston n p T).rho = p.rho
      ∧ (mkRoughHeston n p T).S0 = p.S0
      ∧ (mkRoughHeston n p T).V0 = p.V0
      ∧ (mkRoughHeston n p T).T = T
      ∧ (mkRoughHeston n p T).n = n
      ∧ constructRoughHeston 0 p T = none
      ∧ (∀ (q : HestonParams) (U : ℝ), q.alpha < 0 → constructRoughHeston n q U = none)
      ∧ (∀ (q : HestonParams) (U : ℝ), U < 0 → (¬ ∃ m : ℤ, q.alpha = (m : ℝ)) →
          constructRoughHeston n q U = none) := by
  refine ⟨?_, rfl, rfl, rfl, rfl, rfl, rfl, ?_, ?_, ?_⟩
  · rw [constructRoughHeston, if_neg]
    push_neg
    refine ⟨by omega, halpha, fun hT => ?_⟩
    rcases hTa with h0 | hm
    · exact absurd hT (not_lt.mpr h0)
    · exact hm
  · rw [constructRoughHeston, if_pos (Or.inl rfl)]
  · intro q U hq
    rw [constructRoughHeston, if_pos (Or.inr (Or.inl hq))]
  · intro q U hU hq
    rw [constructRoughHeston, if_pos (Or.inr (Or.inr ⟨hU, hq⟩))]

/-- Witness for C6 (amended): the hypotheses hold at `n = 1` with the
regression parameters (`alpha = 0.6 ≥ 0`) and `T = 1 ≥ 0`. -/
theorem construction_no_validation_witness :
    1 ≤ 1 ∧ 0 ≤ regressionParams.alpha
      ∧ ((0 : ℝ) ≤ 1 ∨ ∃ m : ℤ, regressionParams.alpha = (m : ℝ))
      ∧ (constructRoughHeston 1 regressionParams 1 = some (mkRoughHeston 1 regressionParams 1)
          ∧ (mkRoughHeston 1 regressionParams 1).alpha = regressionParams.alpha
          ∧ (mkRoughHeston 1 regressionParams 1).rho = regressionParams.rho
          ∧ (mkRoughHeston 1 regressionParams 1).S0 = regressionParams.S0
          ∧ (mkRoughHeston 1 regressionParams 1).V0 = regressionParams.V0
          ∧ (mkRoughHeston 1 regressionParams 1).T = 1
          ∧ (mkRoughHeston 1 regressionParams 1).n = 1
          ∧ constructRoughHeston 0 regressionParams 1 = none
          ∧ (∀ (q : HestonParams) (U : ℝ), q.alpha < 0 → constructRoughHeston 1 q U = none)
          ∧ (∀ (q : HestonParams) (U : ℝ), U < 0 → (¬ ∃ m : ℤ, q.alpha = (m : ℝ)) →
              constructRoughHeston 1 q U = none)) :=
  ⟨le_rfl, by norm_num [regressionParams], Or.inl (by norm_num),
    construction_no_validation 1 regressionParams 1 le_rfl
      (by norm_num [regressionParams]) (Or.inl (by norm_num))⟩

/-! ### C9 -/

/-- One public operation on a `roughHeston` instance after construction:
a direct solver call, a characteristic-function evaluation, a rough-model
price query (whose adaptive quadrature evaluates the characteristic function
at a finite list of frequency nodes), or a reference-model price query. -/
inductive HestonOp where
  | solve (a : ℂ)
  | charFn (a : ℂ)
  | callPrice (k upLim : ℝ) (nodes : List ℝ)
  | refPrice (k : ℝ)

/-- The state effect of one operation: only `rHeston_char_function` (via
`fill_h`) writes any attribute, namely `h_hat`. -/
noncomputable def stepOp (s : RoughHeston) (op : HestonOp) : RoughHeston :=
  match op with
  | .solve a => s.fill_h a
  | .charFn a => (s.rHeston_char_function_run a).1
  | .callPrice _ _ nodes =>
      nodes.foldl (fun (st : RoughHeston) (u : ℝ) =>
        (st.rHeston_char_function_run ((u : ℂ) - 0.5 * Complex.I)).1) s
  | .refPrice _ => s

/-- State after a whole sequence of public operations. -/
noncomputable def runOps (s : RoughHeston) (ops : List HestonOp) : RoughHeston :=
  ops.foldl stepOp s

lemma charFn_fold_preserves_weights (nodes : List ℝ) (s : RoughHeston) :
    (nodes.foldl (fun st u => (st.rHeston_char_function_run ((u : ℂ) - 0.5 * Complex.I)).1) s).a_
        = s.a_
      ∧ (nodes.foldl (fun st u => (st.rHeston_char_function_run ((u : ℂ) - 0.5 * Complex.I)).1) s).b_
        = s.b_ := by
  induction nodes generalizing s with
  | nil => exact ⟨rfl, rfl⟩
  | cons u rest ih =>
    simp only [List.foldl_cons]
    exact ih _

lemma stepOp_preserves_weights (s : RoughHeston) (op : HestonOp) :
    (stepOp s op).a_ = s.a_ ∧ (stepOp s op).b_ = s.b_ := by
  cases op with
  | solve a => exact ⟨rfl, rfl⟩
  | charFn a => exact ⟨rfl, rfl⟩
  | callPrice k upLim nodes =>
    simp only [stepOp]
    exact charFn_fold_preserves_weights nodes s
  | refPrice k => exact ⟨rfl, rfl⟩

/-- C9: the weight matrices `a_` and `b_` are never mutated: after any
sequence of solver calls, characteristic-function evaluations and price
queries, every entry of both matrices equals its construction-time value. -/
theorem weights_never_mutated (s : RoughHeston) (ops : List HestonOp) :
    (∀ j k : ℕ, (runOps s ops).a_ j k = s.a_ j k)
      ∧ (∀ j k : ℕ, (runOps s ops).b_ j k = s.b_ j k) := by
  suffices h : (runOps s ops).a_ = s.a_ ∧ (runOps s ops).b_ = s.b_ by
    exact ⟨fun j k => by rw [h.1], fun j k => by rw [h.2]⟩
  induction ops generalizing s with
  | nil => exact ⟨rfl, rfl⟩
  | cons op rest ih =>
    have hstep := stepOp_preserves_weights s op
    have hrest := ih (stepOp s op)
    simp only [runOps, List.foldl_cons] at hrest ⊢
    exact ⟨hrest.1.trans hstep.1, hrest.2.trans hstep.2⟩

/-! ### C4 -/

/-- The characteristic-function assembly exactly as the specification writes
it: the trapezoidal rule with uniform spacing `dt = T/n` over the `n + 1`
grid points `t_i = i·dt`, the fractional tail
`[1/Γ(1-α)] · (1/(1-α)) · Σ_{i<n} [(T-t_i)^{1-α} - (T-t_{i+1})^{1-α}] · h[i]`
built from the left-endpoint values `h[i]`, and the result
`exp(κθ·integral + V0·frac_integral)`. -/
noncomputable def assembler_spec (n : ℕ) (T alpha kappa theta V0 : ℝ) (h : ℕ → ℂ) : ℂ :=
  Complex.exp ((kappa : ℂ) * (theta : ℂ)
      * (∑ i ∈ Finset.range n, ((T / (n : ℝ) : ℝ) : ℂ) * (h i + h (i + 1)) / 2)
    + (V0 : ℂ)
      * (((1 / Real.Gamma (1 - alpha)) * (1 / (1 - alpha)) : ℝ)
        * ∑ i ∈ Finset.range n,
            (((T - (i : ℝ) * (T / (n : ℝ))) ^ (1 - alpha)
                - (T - ((i : ℝ) + 1) * (T / (n : ℝ))) ^ (1 - alpha) : ℝ) : ℂ) * h i))

/-- C4: for every Fourier argument, `rHeston_char_function` on an engine built
from `(n, params, T)` returns `exp(κθ·integral + V0·frac_integral)` with
`integral` the trapezoidal-rule integral of the solved array over the `n + 1`
equally spaced grid points and `frac_integral` the specified fractional-tail
sum over left-endpoint values. -/
theorem char_function_assembly (n : ℕ) (p : HestonParams) (T : ℝ) (a : ℂ) :
    (mkRoughHeston n p T).rHeston_char_function a
      = assembler_spec n T p.alpha p.kappa p.theta p.V0 ((mkRoughHeston n p T).fill_h_fun a) := by
  have hgrid : (mkRoughHeston n p T).time_grid = fun i : ℕ => (i : ℝ) * (T / (n : ℝ)) := rfl
  have hfb : (mkRoughHeston n p T).frac_bar = 1 / Real.Gamma (1 - p.alpha) := rfl
  have hkap : (mkRoughHeston n p T).kappa = p.kappa := rfl
  have hth : (mkRoughHeston n p T).theta = p.theta := rfl
  have hV0 : (mkRoughHeston n p T).V0 = p.V0 := rfl
  have hT : (mkRoughHeston n p T).T = T := rfl
  simp only [RoughHeston.rHeston_char_function, assembler_spec, trapz, hgrid, hfb, hkap, hth,
    hV0, hT, mkRoughHeston_n, mkRoughHeston_alpha]
  set h : ℕ → ℂ := (mkRoughHeston n p T).fill_h_fun a with hh
  have hsum1 : ∑ i ∈ Finset.range n,
        ((((i : ℕ) + 1 : ℕ) * (T / (n : ℝ)) - (i : ℝ) * (T / (n : ℝ)) : ℝ) : ℂ) * (h i + h (i + 1)) / 2
      = ∑ i ∈ Finset.range n, ((T / (n : ℝ) : ℝ) : ℂ) * (h i + h (i + 1)) / 2 := by
    refine Finset.sum_congr rfl fun i _ => ?_
    push_cast
    ring
  have hsum2 : ∀ S : ℂ,
      ((1 / Real.Gamma (1 - p.alpha) : ℝ) : ℂ) * S / ((1 - p.alpha : ℝ) : ℂ)
        = (((1 / Real.Gamma (1 - p.alpha)) * (1 / (1 - p.alpha)) : ℝ) : ℂ) * S := by
    intro S
    push_cast
    ring
  have hsum3 : ∑ i ∈ Finset.range n,
        (((T - (i : ℝ) * (T / (n : ℝ))) ^ (1 - p.alpha)
            - (T - ((i + 1 : ℕ) : ℝ) * (T / (n : ℝ))) ^ (1 - p.alpha) : ℝ) : ℂ) * h i
      = ∑ i ∈ Finset.range n,
        (((T - (i : ℝ) * (T / (n : ℝ))) ^ (1 - p.alpha)
            - (T - ((i : ℝ) + 1) * (T / (n : ℝ))) ^ (1 - p.alpha) : ℝ) : ℂ) * h i := by
    refine Finset.sum_congr rfl fun i _ => ?_
    push_cast
    ring_nf
  rw [hsum1, hsum2, hsum3]

/-! ### The Black-Scholes collaborator (cell 4 of the notebook) -/

/-- Density of the standard normal distribution. -/
noncomputable def normPdf (t : ℝ) : ℝ := Real.exp (-(t ^ 2) / 2) / Real.sqrt (2 * Real.pi)

/-- `scipy.stats.norm.cdf`: the standard normal cumulative distribution
function, written through its primitive from `0` (`Φ(x) = ½ + ∫₀ˣ φ`), which
is exactly the mathematical function the library computes. -/
noncomputable def normCdf (x : ℝ) : ℝ := 1 / 2 + ∫ t in (0 : ℝ)..x, normPdf t

/-- `BlackScholesCallPut(S, K, T, sigma, r, call_put)` from the source. -/
noncomputable def BlackScholesCallPut (S K T sigma r call_put : ℝ) : ℝ :=
  let d1 := (Real.log (S / K) + (r + 0.5 * sigma ^ 2) * T) / (sigma * Real.sqrt T)
  let d2 := d1 - sigma * Real.sqrt T
  call_put * (S * normCdf (call_put * d1) - K * Real.exp (-r * T) * normCdf (call_put * d2))

/-- The nested objective `smileMin(vol, *args)` inside `impliedVol`. -/
noncomputable def smileMin (vol S K T r price : ℝ) : ℝ :=
  price - BlackScholesCallPut S K T vol r 1

open Classical in
/-- `scipy.optimize.bisect(f, a, b)`, modelled by its documented contract: it
raises `ValueError` (same nonzero sign at the two endpoints) without returning
a value, and otherwise converges to a root of `f` in `[a, b]`. -/
noncomputable def bisect (f : ℝ → ℝ) (lo hi : ℝ) : Option ℝ :=
  if 0 < f lo * f hi then none
  else if h : ∃ x, x ∈ Set.Icc lo hi ∧ f x = 0 then some h.choose else none

/-- `impliedVol(S, K, T, r, price)` from the source: bisection of `smileMin`
on the bracket `(0.0001, 3.0)`. -/
noncomputable def impliedVol (S K T r price : ℝ) : Option ℝ :=
  bisect (fun vol => smileMin vol S K T r price) 0.0001 3

/-- Value of `d1` in `BlackScholesCallPut` as a function of the volatility. -/
noncomputable def bsD1 (S K T r sigma : ℝ) : ℝ :=
  (Real.log (S / K) + (r + 0.5 * sigma ^ 2) * T) / (sigma * Real.sqrt T)

/-- Value of `d2` in `BlackScholesCallPut` as a function of the volatility. -/
noncomputable def bsD2 (S K T r sigma : ℝ) : ℝ :=
  bsD1 S K T r sigma - sigma * Real.sqrt T

lemma BlackScholesCall_eq (S K T sigma r : ℝ) :
    BlackScholesCallPut S K T sigma r 1
      = S * normCdf (bsD1 S K T r sigma) - K * Real.exp (-r * T) * normCdf (bsD2 S K T r sigma) := by
  simp [BlackScholesCallPut, bsD1, bsD2]

lemma normPdf_continuous : Continuous normPdf := by
  unfold normPdf
  exact (Real.continuous_exp.comp (by continuity)).div_const _

lemma normPdf_pos (t : ℝ) : 0 < normPdf t := by
  unfold normPdf
  have h2 : 0 < Real.sqrt (2 * Real.pi) := Real.sqrt_pos.mpr (by positivity)
  exact div_pos (Real.exp_pos _) h2

lemma hasDerivAt_normCdf (x : ℝ) : HasDerivAt normCdf (normPdf x) x := by
  have hint : IntervalIntegrable normPdf MeasureTheory.volume 0 x :=
    normPdf_continuous.intervalIntegrable 0 x
  have hftc := intervalIntegral.integral_hasDerivAt_right hint
    (normPdf_continuous.stronglyMeasurableAtFilter _ _) normPdf_continuous.continuousAt
  have h2 := hftc.const_add (1 / 2 : ℝ)
  exact h2

lemma normCdf_continuous : Continuous normCdf :=
  continuous_iff_continuousAt.mpr fun x => (hasDerivAt_normCdf x).continuousAt

lemma bsD1_mul (S K T r : ℝ) {sigma : ℝ} (hsT : sigma * Real.sqrt T ≠ 0) :
    bsD1 S K T r sigma * (sigma * Real.sqrt T)
      = Real.log (S / K) + (r + 0.5 * sigma ^ 2) * T := by
  rw [bsD1]
  exact div_mul_cancel₀ _ hsT

/-- The Black-Scholes pdf identity `K·e^{-rT}·φ(d2) = S·φ(d1)`, the reason the
vega reduces to `S·φ(d1)·√T`. -/
lemma bs_pdf_identity (S K T r : ℝ) (hS : 0 < S) (hK : 0 < K) (hT : 0 < T)
    {sigma : ℝ} (hsigma : 0 < sigma) :
    K * Real.exp (-r * T) * normPdf (bsD2 S K T r sigma) = S * normPdf (bsD1 S K T r sigma) := by
  have hsqT : 0 < Real.sqrt T := Real.sqrt_pos.mpr hT
  have hsT : sigma * Real.sqrt T ≠ 0 := by positivity
  have hTT : Real.sqrt T ^ 2 = T := Real.sq_sqrt hT.le
  have hlog : Real.log (S / K) = Real.log S - Real.log K := Real.log_div (ne_of_gt hS) (ne_of_gt hK)
  have hd1T := bsD1_mul S K T r hsT
  have h2pi : Real.sqrt (2 * Real.pi) ≠ 0 := by positivity
  unfold normPdf bsD2
  set d := bsD1 S K T r sigma with hd
  have hexp : Real.log K + (-r * T) + (-((d - sigma * Real.sqrt T) ^ 2) / 2)
      = Real.log S + (-(d ^ 2) / 2) := by
    have hexpand : -((d - sigma * Real.sqrt T) ^ 2) / 2
        = -(d ^ 2) / 2 + d * (sigma * Real.sqrt T) - sigma ^ 2 * Real.sqrt T ^ 2 / 2 := by
      ring
    rw [hexpand, hTT, hd1T, hlog]
    ring
  calc K * Real.exp (-r * T) * (Real.exp (-((d - sigma * Real.sqrt T) ^ 2) / 2) / Real.sqrt (2 * Real.pi))
      = Real.exp (Real.log K) * Real.exp (-r * T)
          * Real.exp (-((d - sigma * Real.sqrt T) ^ 2) / 2) / Real.sqrt (2 * Real.pi) := by
        rw [Real.exp_log hK]; ring
    _ = Real.exp (Real.log K + (-r * T) + (-((d - sigma * Real.sqrt T) ^ 2) / 2))
          / Real.sqrt (2 * Real.pi) := by
        rw [Real.exp_add, Real.exp_add]
    _ = Real.exp (Real.log S + (-(d ^ 2) / 2)) / Real.sqrt (2 * Real.pi) := by rw [hexp]
    _ = Real.exp (Real.log S) * Real.exp (-(d ^ 2) / 2) / Real.sqrt (2 * Real.pi) := by
        rw [Real.exp_add]
    _ = S * (Real.exp (-(d ^ 2) / 2) / Real.sqrt (2 * Real.pi)) := by
        rw [Real.exp_log hS]; ring

/-- The Black-Scholes call price has derivative `S·φ(d1)·√T` (the vega) in the
volatility, for positive volatility. -/
lemma bs_hasDerivAt (S K T r : ℝ) (hS : 0 < S) (hK : 0 < K) (hT : 0 < T)
    {sigma : ℝ} (hsigma : 0 < sigma) :
    HasDerivAt (fun s => BlackScholesCallPut S K T s r 1)
      (S * normPdf (bsD1 S K T r sigma) * Real.sqrt T) sigma := by
  have hsqT : 0 < Real.sqrt T := Real.sqrt_pos.mpr hT
  have hsT : sigma * Real.sqrt T ≠ 0 := by positivity
  have hsq : HasDerivAt (fun s : ℝ => s ^ 2) (2 * sigma) sigma := by
    simpa using hasDerivAt_pow 2 sigma
  have hnum : HasDerivAt (fun s : ℝ => Real.log (S / K) + (r + 0.5 * s ^ 2) * T)
      (0.5 * (2 * sigma) * T) sigma :=
    (((hsq.const_mul 0.5).const_add r).mul_const T).const_add (Real.log (S / K))
  have hden : HasDerivAt (fun s : ℝ => s * Real.sqrt T) (Real.sqrt T) sigma := by
    simpa using (hasDerivAt_id sigma).mul_const (Real.sqrt T)
  have hd1 : HasDerivAt (fun s => bsD1 S K T r s)
      ((0.5 * (2 * sigma) * T * (sigma * Real.sqrt T)
        - (Real.log (S / K) + (r + 0.5 * sigma ^ 2) * T) * Real.sqrt T)
        / (sigma * Real.sqrt T) ^ 2) sigma := by
    simpa [bsD1] using hnum.div hden hsT
  set D1 := (0.5 * (2 * sigma) * T * (sigma * Real.sqrt T)
      - (Real.log (S / K) + (r + 0.5 * sigma ^ 2) * T) * Real.sqrt T)
      / (sigma * Real.sqrt T) ^ 2 with hD1
  have hd2 : HasDerivAt (fun s => bsD2 S K T r s) (D1 - Real.sqrt T) sigma := by
    simpa [bsD2] using hd1.sub hden
  have hphi1 : HasDerivAt (fun s => normCdf (bsD1 S K T r s))
      (normPdf (bsD1 S K T r sigma) * D1) sigma :=
    (hasDerivAt_normCdf (bsD1 S K T r sigma)).comp sigma hd1
  have hphi2 : HasDerivAt (fun s => normCdf (bsD2 S K T r s))
      (normPdf (bsD2 S K T r sigma) * (D1 - Real.sqrt T)) sigma :=
    (hasDerivAt_normCdf (bsD2 S K T r sigma)).comp sigma hd2
  have htot : HasDerivAt
      (fun s => S * normCdf (bsD1 S K T r s) - K * Real.exp (-r * T) * normCdf (bsD2 S K T r s))
      (S * (normPdf (bsD1 S K T r sigma) * D1)
        - K * Real.exp (-r * T) * (normPdf (bsD2 S K T r sigma) * (D1 - Real.sqrt T))) sigma :=
    (hphi1.const_mul S).sub (hphi2.const_mul (K * Real.exp (-r * T)))
  have hid := bs_pdf_identity S K T r hS hK hT hsigma
  have hval : S * (normPdf (bsD1 S K T r sigma) * D1)
      - K * Real.exp (-r * T) * (normPdf (bsD2 S K T r sigma) * (D1 - Real.sqrt T))
      = S * normPdf (bsD1 S K T r sigma) * Real.sqrt T := by
    linear_combination (Real.sqrt T - D1) * hid
  rw [hval] at htot
  have hfun : (fun s => BlackScholesCallPut S K T s r 1)
      = fun s => S * normCdf (bsD1 S K T r s) - K * Real.exp (-r * T) * normCdf (bsD2 S K T r s) := by
    funext s
    exact BlackScholesCall_eq S K T s r
  rw [hfun]
  exact htot

/-- The Black-Scholes call price is strictly increasing in the volatility on
the bisection bracket `[0.0001, 3]`. -/
lemma bs_strictMonoOn (S K T r : ℝ) (hS : 0 < S) (hK : 0 < K) (hT : 0 < T) :
    StrictMonoOn (fun s => BlackScholesCallPut S K T s r 1) (Set.Icc (0.0001 : ℝ) 3) := by
  have hderiv : ∀ s ∈ Set.Icc (0.0001 : ℝ) 3, 0 < s →
      HasDerivAt (fun v => BlackScholesCallPut S K T v r 1)
        (S * normPdf (bsD1 S K T r s) * Real.sqrt T) s := fun s _ hs =>
    bs_hasDerivAt S K T r hS hK hT hs
  apply strictMonoOn_of_deriv_pos (convex_Icc _ _)
  · intro s hs
    have hs0 : 0 < s := lt_of_lt_of_le (by norm_num) hs.1
    exact (hderiv s hs hs0).continuousAt.continuousWithinAt
  · intro s hs
    rw [interior_Icc] at hs
    have hs0 : 0 < s := lt_of_lt_of_le (by norm_num) hs.1.le
    rw [(bs_hasDerivAt S K T r hS hK hT hs0).deriv]
    have := normPdf_pos (bsD1 S K T r s)
    have := Real.sqrt_pos.mpr hT
    positivity

/-! ### C10 -/

/-- C10: `impliedVol(S, K, T, r, price)` either fails with its NoRootFound
condition (the bisection raises instead of returning) whenever `price` lies
outside the Black-Scholes price range attainable on the bracket
`[0.0001, 3]`, or returns the unique volatility in that bracket at which
`BlackScholesCallPut(S, K, T, vol, r)` equals `price`. -/
theorem impliedVol_root_spec (S K T r price : ℝ) (hS : 0 < S) (hK : 0 < K) (hT : 0 < T) :
    (price ∉ Set.Icc (BlackScholesCallPut S K T 0.0001 r 1) (BlackScholesCallPut S K T 3 r 1) →
        impliedVol S K T r price = none)
    ∧ (price ∈ Set.Icc (BlackScholesCallPut S K T 0.0001 r 1) (BlackScholesCallPut S K T 3 r 1) →
        ∃ v, impliedVol S K T r price = some v ∧ v ∈ Set.Icc (0.0001 : ℝ) 3
          ∧ BlackScholesCallPut S K T v r 1 = price
          ∧ ∀ w ∈ Set.Icc (0.0001 : ℝ) 3, BlackScholesCallPut S K T w r 1 = price → w = v) := by
  have hmono := bs_strictMonoOn S K T r hS hK hT
  have hcont : ContinuousOn (fun s => BlackScholesCallPut S K T s r 1) (Set.Icc 0.0001 3) := by
    intro s hs
    have hs0 : 0 < s := lt_of_lt_of_le (by norm_num) hs.1
    exact (bs_hasDerivAt S K T r hS hK hT hs0).continuousAt.continuousWithinAt
  have hmemlo : (0.0001 : ℝ) ∈ Set.Icc (0.0001 : ℝ) 3 := Set.left_mem_Icc.mpr (by norm_num)
  have hmemhi : (3 : ℝ) ∈ Set.Icc (0.0001 : ℝ) 3 := Set.right_mem_Icc.mpr (by norm_num)
  have hlh : BlackScholesCallPut S K T 0.0001 r 1 < BlackScholesCallPut S K T 3 r 1 :=
    hmono hmemlo hmemhi (by norm_num)
  set f : ℝ → ℝ := fun vol => smileMin vol S K T r price with hf
  have hfeq : ∀ v, f v = price - BlackScholesCallPut S K T v r 1 := fun v => rfl
  have hIV : impliedVol S K T r price = bisect f 0.0001 3 := rfl
  constructor
  · intro hout
    have hsplit : price < BlackScholesCallPut S K T 0.0001 r 1
        ∨ BlackScholesCallPut S K T 3 r 1 < price := by
      rcases lt_or_le price (BlackScholesCallPut S K T 0.0001 r 1) with h | h
      · exact Or.inl h
      · right
        by_contra hc
        push_neg at hc
        exact hout ⟨h, hc⟩
    have hpos : 0 < f 0.0001 * f 3 := by
      rcases hsplit with h | h
      · have h1 : f 0.0001 < 0 := by rw [hfeq]; linarith
        have h2 : f 3 < 0 := by rw [hfeq]; linarith
        exact mul_pos_of_neg_of_neg h1 h2
      · have h1 : 0 < f 0.0001 := by rw [hfeq]; linarith
        have h2 : 0 < f 3 := by rw [hfeq]; linarith
        exact mul_pos h1 h2
    rw [hIV, bisect, if_pos hpos]
  · intro hin
    have hlo : BlackScholesCallPut S K T 0.0001 r 1 ≤ price := hin.1
    have hhi : price ≤ BlackScholesCallPut S K T 3 r 1 := hin.2
    have hnpos : ¬ 0 < f 0.0001 * f 3 := by
      have h1 : 0 ≤ f 0.0001 := by rw [hfeq]; linarith
      have h2 : f 3 ≤ 0 := by rw [hfeq]; linarith
      exact not_lt.mpr (mul_nonpos_iff.mpr (Or.inl ⟨h1, h2⟩))
    have hex : ∃ x, x ∈ Set.Icc (0.0001 : ℝ) 3 ∧ f x = 0 := by
      have himage := intermediate_value_Icc (by norm_num : (0.0001 : ℝ) ≤ 3) hcont
      obtain ⟨v, hv, hveq⟩ := himage ⟨hlo, hhi⟩
      exact ⟨v, hv, by rw [hfeq]; exact sub_eq_zero.mpr hveq.symm⟩
    rw [hIV, bisect, if_neg hnpos, dif_pos hex]
    have hroot : BlackScholesCallPut S K T hex.choose r 1 = price := by
      have h0 := hex.choose_spec.2
      rw [hfeq] at h0
      linarith
    refine ⟨hex.choose, rfl, hex.choose_spec.1, hroot, ?_⟩
    intro w hw hweq
    exact hmono.injOn hw hex.choose_spec.1 (by rw [hweq, hroot])

/-- Witness for C10: the hypotheses `S, K, T > 0` hold at `S = K = T = 1`,
`r = 0`, `price = -1`. -/
theorem impliedVol_root_spec_witness :
    (0 : ℝ) < 1 ∧ (0 : ℝ) < 1 ∧ (0 : ℝ) < 1
      ∧ (((-1 : ℝ) ∉ Set.Icc (BlackScholesCallPut 1 1 1 0.0001 0 1) (BlackScholesCallPut 1 1 1 3 0 1) →
            impliedVol 1 1 1 0 (-1) = none)
        ∧ ((-1 : ℝ) ∈ Set.Icc (BlackScholesCallPut 1 1 1 0.0001 0 1) (BlackScholesCallPut 1 1 1 3 0 1) →
            ∃ v, impliedVol 1 1 1 0 (-1) = some v ∧ v ∈ Set.Icc (0.0001 : ℝ) 3
              ∧ BlackScholesCallPut 1 1 1 v 0 1 = -1
              ∧ ∀ w ∈ Set.Icc (0.0001 : ℝ) 3, BlackScholesCallPut 1 1 1 w 0 1 = -1 → w = v)) :=
  ⟨one_pos, one_pos, one_pos, impliedVol_root_spec 1 1 1 0 (-1) one_pos one_pos one_pos⟩
